import Mathlib

/-!
Shallow embedding of the `parserc` parser-combinator core
(crates/parserc/src/{errors,span,input,parser,c,syntax}.rs).

Modelling conventions:
* Machine integers (`usize`) are `Nat`; no arithmetic in the embedded code
  can overflow on the inputs the claims quantify over.
* A Rust parser is `FnOnce(&mut I) -> Result<O, Kind>`; we model it in
  state-passing style as `I → Option (Except Kind O × I)`.  The returned
  cursor is the final state of the `&mut I` argument (also on `Err`, since
  Rust does not roll the cursor back on error).  The outer `Option` models
  panics: `none` means the call panicked (the only panic source in the
  embedded fragment is `str::split_at` at an out-of-bounds or
  non-code-point-boundary index).
* Both built-in cursors (`bytes::TokenStream`, `chars::TokenStream`) hold a
  `&str`, modelled as `List Char`; byte-level views are obtained through an
  explicit UTF-8 encoder `strBytes`.  `str::split_at` is modelled by
  `splitAtBytes`, which returns `none` exactly when Rust would panic.
* The built-in error enum `Kind` is closed; parsers are embedded at
  `Error = Kind` (the default error type of both token streams).
-/

namespace Parserc

/-- Control-flow tag of an error (errors.rs `ControlFlow`). -/
inductive ControlFlow : Type where
  | fatal : ControlFlow
  | recovable : ControlFlow
  | incomplete : ControlFlow
deriving DecidableEq

/-- Source region (the external `sourcespan::Span<usize>` as used by parserc). -/
inductive Span : Type where
  | none : Span
  | range (start stop : Nat) : Span
  | rangeFrom (start : Nat) : Span
  | rangeTo (stop : Nat) : Span
deriving DecidableEq

/-- Built-in error kinds (errors.rs `Kind`). -/
inductive Kind : Type where
  | next (cf : ControlFlow) (sp : Span)
  | nextIf (cf : ControlFlow) (sp : Span)
  | keyword (cf : ControlFlow) (sp : Span)
  | synt (name : String) (cf : ControlFlow) (sp : Span)
  | token (name : String) (cf : ControlFlow) (sp : Span)
  | limitsTo (cf : ControlFlow) (sp : Span)
  | limits (cf : ControlFlow) (sp : Span)
  | limitsFrom (cf : ControlFlow) (sp : Span)
  | takeUntil (cf : ControlFlow) (sp : Span)
  | takeWhileRange (cf : ControlFlow) (sp : Span)
  | takeWhileFrom (cf : ControlFlow) (sp : Span)
  | leftRecursion (cf : ControlFlow) (sp : Span)
  | delimiter (cf : ControlFlow) (sp : Span)
deriving DecidableEq

/-- errors.rs `Kind::control_flow`. -/
def Kind.controlFlow : Kind → ControlFlow
  | .next cf _ => cf
  | .nextIf cf _ => cf
  | .keyword cf _ => cf
  | .synt _ cf _ => cf
  | .limitsTo cf _ => cf
  | .limits cf _ => cf
  | .limitsFrom cf _ => cf
  | .takeUntil cf _ => cf
  | .token _ cf _ => cf
  | .takeWhileRange cf _ => cf
  | .takeWhileFrom cf _ => cf
  | .leftRecursion cf _ => cf
  | .delimiter cf _ => cf

/-- errors.rs `Kind::into_fatal`, translated verbatim (note the
`TakeWhileFrom → TakeWhileRange` and `Delimiter → LimitsFrom` arms of the
source). -/
def Kind.intoFatal : Kind → Kind
  | .next _ sp => .next .fatal sp
  | .nextIf _ sp => .nextIf .fatal sp
  | .keyword _ sp => .keyword .fatal sp
  | .takeUntil _ sp => .takeUntil .fatal sp
  | .takeWhileRange _ sp => .takeWhileRange .fatal sp
  | .takeWhileFrom _ sp => .takeWhileRange .fatal sp
  | .synt name _ sp => .synt name .fatal sp
  | .token name _ sp => .token name .fatal sp
  | .limitsTo _ sp => .limitsTo .fatal sp
  | .limits _ sp => .limits .fatal sp
  | .limitsFrom _ sp => .limitsFrom .fatal sp
  | .delimiter _ sp => .limitsFrom .fatal sp
  | .leftRecursion _ sp => .leftRecursion .fatal sp

/-- errors.rs `Kind::to_span`. -/
def Kind.toSpan : Kind → Span
  | .next _ sp => sp
  | .nextIf _ sp => sp
  | .keyword _ sp => sp
  | .synt _ _ sp => sp
  | .token _ _ sp => sp
  | .limitsTo _ sp => sp
  | .limits _ sp => sp
  | .takeUntil _ sp => sp
  | .takeWhileRange _ sp => sp
  | .takeWhileFrom _ sp => sp
  | .limitsFrom _ sp => sp
  | .leftRecursion _ sp => sp
  | .delimiter _ sp => sp

/-- A parser (parser.rs `Parser<I>`): a one-shot function mutating a cursor.
`none` models a panic during the call. -/
abbrev Parser (I O : Type) : Type := I → Option (Except Kind O × I)

/-- parser.rs `IsOk::parse` (the `ok()` combinator): snapshot the cursor,
run the inner parser, pass `Fatal` errors through, and restore the snapshot
on any non-`Fatal` error. -/
def isOk {I O : Type} (p : Parser I O) : Parser I (Option O) := fun input =>
  let snapshot := input
  match p input with
  | Option.none => Option.none
  | some (Except.ok t, input2) => some (Except.ok (some t), input2)
  | some (Except.error err, input2) =>
    if err.controlFlow = ControlFlow.fatal then some (Except.error err, input2)
    else some (Except.ok Option.none, snapshot)

/-- parser.rs `Fatal::parse` (the `fatal()` combinator). -/
def fatalP {I O : Type} (p : Parser I O) : Parser I O := fun input =>
  match p input with
  | some (Except.error err, input2) => some (Except.error err.intoFatal, input2)
  | r => r

/-- parser.rs `Or::parse`: run `self.0.ok()` on a clone of the cursor;
commit the clone on success, try the alternative on `Ok(None)`, and
propagate (`?`) the error otherwise, leaving the original cursor alone. -/
def orP {I O : Type} (p q : Parser I O) : Parser I O := fun input =>
  match isOk p input with
  | Option.none => Option.none
  | some (Except.ok (some v), tryInput) => some (Except.ok v, tryInput)
  | some (Except.ok Option.none, _) => q input
  | some (Except.error err, _) => some (Except.error err, input)

/-! ### UTF-8 model (Rust `char::len_utf8` / `str` byte layout) -/

/-- Rust `char::len_utf8` (also input.rs `Item::len` for `char`). -/
def utf8Size (c : Char) : Nat :=
  if c.toNat < 0x80 then 1
  else if c.toNat < 0x800 then 2
  else if c.toNat < 0x10000 then 3
  else 4

/-- The UTF-8 encoding of one scalar value. -/
def charUtf8 (c : Char) : List Nat :=
  if c.toNat < 0x80 then [c.toNat]
  else if c.toNat < 0x800 then
    [0xC0 + c.toNat / 0x40, 0x80 + c.toNat % 0x40]
  else if c.toNat < 0x10000 then
    [0xE0 + c.toNat / 0x1000, 0x80 + (c.toNat / 0x40) % 0x40, 0x80 + c.toNat % 0x40]
  else
    [0xF0 + c.toNat / 0x40000, 0x80 + (c.toNat / 0x1000) % 0x40,
      0x80 + (c.toNat / 0x40) % 0x40, 0x80 + c.toNat % 0x40]

/-- Byte view of a `&str` (`str::as_bytes`). -/
def strBytes (s : List Char) : List Nat := (s.map charUtf8).flatten

/-- Byte length of a `&str` (`str::len`, the `Length` impl for `&str`). -/
def utf8Len (s : List Char) : Nat := (s.map utf8Size).sum

/-- A UTF-8 continuation byte. -/
def isCont (b : Nat) : Prop := 0x80 ≤ b ∧ b < 0xC0

instance (b : Nat) : Decidable (isCont b) := by unfold isCont; infer_instance

/-- `<[u8]>::starts_with`. -/
def startsWithBytes : List Nat → List Nat → Bool
  | [], _ => true
  | _ :: _, [] => false
  | a :: as_, b :: bs => a = b && startsWithBytes as_ bs

/-- `memmem::find`: byte index of the first occurrence of `needle`. -/
def findBytes (needle : List Nat) (hay : List Nat) : Option Nat :=
  if startsWithBytes needle hay then some 0
  else
    match hay with
    | [] => Option.none
    | _ :: t => (findBytes needle t).map (· + 1)

/-- Rust `str::split_at` at byte index `n`: `none` models the panic on an
out-of-bounds index or an index inside a multi-byte code point. -/
def splitAtBytes : List Char → Nat → Option (List Char × List Char)
  | s, 0 => some ([], s)
  | [], _ + 1 => Option.none
  | c :: rest, n + 1 =>
    if utf8Size c ≤ n + 1 then
      (splitAtBytes rest (n + 1 - utf8Size c)).map fun pr => (c :: pr.1, pr.2)
    else Option.none

/-! ### The two string-backed cursors (input.rs) -/

/-- input.rs `chars::TokenStream`: `(offset, value)` window over a `&str`,
iterated code point by code point. -/
structure CharsTS : Type where
  offset : Nat
  value : List Char
deriving DecidableEq

namespace CharsTS

/-- `Input::len` (byte length of the window). -/
def len (c : CharsTS) : Nat := utf8Len c.value

/-- `Input::start`. -/
def start (c : CharsTS) : Nat := c.offset

/-- `Input::end`. -/
def stop (c : CharsTS) : Nat := c.offset + utf8Len c.value

/-- `Input::to_span`. -/
def toSpan (c : CharsTS) : Span := Span.range c.start c.stop

/-- `Input::split_to` (panics — `none` — off a non-boundary index). -/
def splitTo (c : CharsTS) (at_ : Nat) : Option (CharsTS × CharsTS) :=
  (splitAtBytes c.value at_).map fun pr =>
    (⟨c.offset, pr.1⟩, ⟨c.offset + at_, pr.2⟩)

end CharsTS

/-- input.rs `bytes::TokenStream`: same `(offset, &str)` layout, iterated
byte by byte. -/
structure BytesTS : Type where
  offset : Nat
  value : List Char
deriving DecidableEq

namespace BytesTS

/-- `Input::len`. -/
def len (c : BytesTS) : Nat := utf8Len c.value

/-- `Input::start`. -/
def start (c : BytesTS) : Nat := c.offset

/-- `Input::end`. -/
def stop (c : BytesTS) : Nat := c.offset + utf8Len c.value

/-- `Input::to_span`. -/
def toSpan (c : BytesTS) : Span := Span.range c.start c.stop

/-- `Input::split_to` (panics — `none` — off a non-boundary index). -/
def splitTo (c : BytesTS) (at_ : Nat) : Option (BytesTS × BytesTS) :=
  (splitAtBytes c.value at_).map fun pr =>
    (⟨c.offset, pr.1⟩, ⟨c.offset + at_, pr.2⟩)

end BytesTS

/-! ### Primitive recognizers (c.rs), character flavor -/

/-- c.rs `next` on the character cursor. -/
def nextC (item : Char) : Parser CharsTS CharsTS := fun input =>
  match input.value with
  | [] => some (Except.error (Kind.next ControlFlow.incomplete input.toSpan), input)
  | c :: _ =>
    if c = item then (input.splitTo (utf8Size item)).map fun pr => (Except.ok pr.1, pr.2)
    else
      some (Except.error
        (Kind.next ControlFlow.recovable (Span.range input.start (input.start + 1))), input)

/-- c.rs `next_if` on the character cursor. -/
def nextIfC (f : Char → Bool) : Parser CharsTS CharsTS := fun input =>
  match input.value with
  | [] => some (Except.error (Kind.nextIf ControlFlow.incomplete input.toSpan), input)
  | c :: _ =>
    if f c then (input.splitTo (utf8Size c)).map fun pr => (Except.ok pr.1, pr.2)
    else some (Except.error (Kind.nextIf ControlFlow.recovable input.toSpan), input)

/-- c.rs `keyword` on the character cursor with a `&str` needle
(`StartWith<&str>` compares byte prefixes; `Length` of a `&str` is its byte
length). -/
def keywordStrC (k : List Char) : Parser CharsTS CharsTS := fun input =>
  if startsWithBytes (strBytes k) (strBytes input.value) then
    (input.splitTo (utf8Len k)).map fun pr => (Except.ok pr.1, pr.2)
  else
    some (Except.error
      (Kind.keyword ControlFlow.recovable
        (Span.range input.start (min (input.start + utf8Len k) input.stop))), input)

/-- c.rs `keyword` on the character cursor with a `&[u8]` needle. -/
def keywordBytesC (k : List Nat) : Parser CharsTS CharsTS := fun input =>
  if startsWithBytes k (strBytes input.value) then
    (input.splitTo k.length).map fun pr => (Except.ok pr.1, pr.2)
  else
    some (Except.error
      (Kind.keyword ControlFlow.recovable
        (Span.range input.start (min (input.start + k.length) input.stop))), input)

/-- c.rs `take_until` on the character cursor with a `&str` needle. -/
def takeUntilStrC (k : List Char) : Parser CharsTS CharsTS := fun input =>
  match findBytes (strBytes k) (strBytes input.value) with
  | some offset => (input.splitTo offset).map fun pr => (Except.ok pr.1, pr.2)
  | Option.none =>
    some (Except.error
      (Kind.takeUntil ControlFlow.recovable (Span.range input.start input.start)), input)

/-- The `take_while` loop of c.rs: code-unit length of the maximal
predicate-satisfying prefix (character items). -/
def twOffsetC (f : Char → Bool) : List Char → Nat
  | [] => 0
  | c :: rest => if f c then utf8Size c + twOffsetC f rest else 0

/-- The bounded loop of c.rs `take_while_range_to` / `take_while_range`:
`while offset < n { … offset += item.len() }` (character items). -/
def twToLoopC (f : Char → Bool) (n : Nat) : List Char → Nat → Nat
  | [], offset => offset
  | c :: rest, offset =>
    if offset < n then
      if f c then twToLoopC f n rest (offset + utf8Size c) else offset
    else offset

/-- c.rs `take_while` on the character cursor. -/
def takeWhileC (f : Char → Bool) : Parser CharsTS CharsTS := fun input =>
  (input.splitTo (twOffsetC f input.value)).map fun pr => (Except.ok pr.1, pr.2)

/-- c.rs `take_till` (literally `take_while` of the negated predicate). -/
def takeTillC (f : Char → Bool) : Parser CharsTS CharsTS :=
  takeWhileC fun c => ! f c

/-- c.rs `take_while_range_to` on the character cursor. -/
def takeWhileRangeToC (n : Nat) (f : Char → Bool) : Parser CharsTS CharsTS := fun input =>
  (input.splitTo (twToLoopC f n input.value 0)).map fun pr => (Except.ok pr.1, pr.2)

/-- c.rs `take_while_range_from` on the character cursor. -/
def takeWhileRangeFromC (n : Nat) (f : Char → Bool) : Parser CharsTS CharsTS := fun input =>
  let offset := twOffsetC f input.value
  if offset < n then
    some (Except.error
      (Kind.takeWhileFrom ControlFlow.recovable
        (Span.range input.start (input.start + offset))), input)
  else (input.splitTo offset).map fun pr => (Except.ok pr.1, pr.2)

/-- c.rs `take_while_range` on the character cursor (`lo..hi`). -/
def takeWhileRangeC (lo hi : Nat) (f : Char → Bool) : Parser CharsTS CharsTS := fun input =>
  let offset := twToLoopC f hi input.value 0
  if offset < lo then
    some (Except.error
      (Kind.takeWhileRange ControlFlow.recovable
        (Span.range input.start (input.start + offset))), input)
  else (input.splitTo offset).map fun pr => (Except.ok pr.1, pr.2)

/-! ### Primitive recognizers, byte flavor -/

/-- c.rs `next_if` on the byte cursor (iterates `str::bytes`). -/
def nextIfB (f : Nat → Bool) : Parser BytesTS BytesTS := fun input =>
  match strBytes input.value with
  | [] => some (Except.error (Kind.nextIf ControlFlow.incomplete input.toSpan), input)
  | b :: _ =>
    if f b then (input.splitTo 1).map fun pr => (Except.ok pr.1, pr.2)
    else some (Except.error (Kind.nextIf ControlFlow.recovable input.toSpan), input)

/-- c.rs `keyword` on the byte cursor with a `&str` needle. -/
def keywordStrB (k : List Char) : Parser BytesTS BytesTS := fun input =>
  if startsWithBytes (strBytes k) (strBytes input.value) then
    (input.splitTo (utf8Len k)).map fun pr => (Except.ok pr.1, pr.2)
  else
    some (Except.error
      (Kind.keyword ControlFlow.recovable
        (Span.range input.start (min (input.start + utf8Len k) input.stop))), input)

/-- c.rs `keyword` on the byte cursor with a `&[u8]` needle. -/
def keywordBytesB (k : List Nat) : Parser BytesTS BytesTS := fun input =>
  if startsWithBytes k (strBytes input.value) then
    (input.splitTo k.length).map fun pr => (Except.ok pr.1, pr.2)
  else
    some (Except.error
      (Kind.keyword ControlFlow.recovable
        (Span.range input.start (min (input.start + k.length) input.stop))), input)

/-- The `take_while` loop over byte items (each item has length 1). -/
def twOffsetB (f : Nat → Bool) : List Nat → Nat
  | [] => 0
  | b :: rest => if f b then 1 + twOffsetB f rest else 0

/-- c.rs `take_while` on the byte cursor. -/
def takeWhileB (f : Nat → Bool) : Parser BytesTS BytesTS := fun input =>
  (input.splitTo (twOffsetB f (strBytes input.value))).map fun pr => (Except.ok pr.1, pr.2)

/-- c.rs `take_while_range_from` on the byte cursor. -/
def takeWhileRangeFromB (n : Nat) (f : Nat → Bool) : Parser BytesTS BytesTS := fun input =>
  let offset := twOffsetB f (strBytes input.value)
  if offset < n then
    some (Except.error
      (Kind.takeWhileFrom ControlFlow.recovable
        (Span.range input.start (input.start + offset))), input)
  else (input.splitTo offset).map fun pr => (Except.ok pr.1, pr.2)

/-! ### Length-bounded syntax nodes (syntax.rs) -/

/-- The `len` computation shared by the `Limits*` nodes: `Some len` for the
first three span shapes, `none` for the early-return arm (`RangeFrom`). -/
def limitsLen : Span → Option Nat
  | Span.none => some 0
  | Span.range a b => some (b - a)
  | Span.rangeTo e => some e
  | Span.rangeFrom _ => Option.none

/-- syntax.rs `Limits::<T, LOWER, HIGHER>::parse`, over an arbitrary inner
syntax node given by its parser `tparse` and span projection `tspan`, on a
cursor type with span projection `ispan` (`Input::to_span`). -/
def limitsParse {I O : Type} (LOWER HIGHER : Nat) (ispan : I → Span)
    (tparse : Parser I O) (tspan : O → Span) : Parser I O := fun input =>
  let start := ispan input
  match tparse input with
  | Option.none => Option.none
  | some (Except.error e, input2) => some (Except.error e, input2)
  | some (Except.ok t, input2) =>
    match limitsLen (tspan t) with
    | Option.none =>
      some (Except.error (Kind.limits ControlFlow.recovable start), input2)
    | some len =>
      if len < LOWER ∨ ¬ len < HIGHER then
        some (Except.error (Kind.limits ControlFlow.recovable start), input2)
      else some (Except.ok t, input2)

/-- syntax.rs `LimitsTo::<T, N>::parse`. -/
def limitsToParse {I O : Type} (N : Nat) (ispan : I → Span)
    (tparse : Parser I O) (tspan : O → Span) : Parser I O := fun input =>
  let start := ispan input
  match tparse input with
  | Option.none => Option.none
  | some (Except.error e, input2) => some (Except.error e, input2)
  | some (Except.ok t, input2) =>
    match limitsLen (tspan t) with
    | Option.none =>
      some (Except.error (Kind.limitsTo ControlFlow.recovable start), input2)
    | some len =>
      if len > N then
        some (Except.error (Kind.limitsTo ControlFlow.recovable start), input2)
      else some (Except.ok t, input2)

/-- syntax.rs `LimitsFrom::<T, LOWER>::parse`. -/
def limitsFromParse {I O : Type} (LOWER : Nat) (ispan : I → Span)
    (tparse : Parser I O) (tspan : O → Span) : Parser I O := fun input =>
  let start := ispan input
  match tparse input with
  | Option.none => Option.none
  | some (Except.error e, input2) => some (Except.error e, input2)
  | some (Except.ok t, input2) =>
    match limitsLen (tspan t) with
    | Option.none =>
      some (Except.error (Kind.limitsFrom ControlFlow.recovable start), input2)
    | some len =>
      if len < LOWER then
        some (Except.error (Kind.limitsFrom ControlFlow.recovable start), input2)
      else some (Except.ok t, input2)

instance {E A : Type} [DecidableEq E] [DecidableEq A] : DecidableEq (Except E A) := fun a b =>
  match a, b with
  | Except.ok x, Except.ok y =>
    if h : x = y then isTrue (by rw [h]) else isFalse (by intro hc; cases hc; exact h rfl)
  | Except.error x, Except.error y =>
    if h : x = y then isTrue (by rw [h]) else isFalse (by intro hc; cases hc; exact h rfl)
  | Except.ok _, Except.error _ => isFalse (by intro hc; cases hc)
  | Except.error _, Except.ok _ => isFalse (by intro hc; cases hc)

/-! ### Concrete parsers used to exhibit behaviors -/

/-- A user-written parser (any `FnOnce` is a `Parser`): consume `a`, then
require `b` under a `fatal()` cut — fails fatally after partial
consumption on input `ax…`. -/
def seqAThenFatalB : Parser CharsTS CharsTS := fun input =>
  match nextC 'a' input with
  | some (Except.ok _, input2) => fatalP (nextC 'b') input2
  | r => r

end Parserc



namespace Parserc

theorem utf8Size_pos (c : Char) : 1 ≤ utf8Size c := by
  unfold utf8Size; split_ifs <;> omega

theorem charUtf8_cases (c : Char) :
    (c.toNat < 0x80 ∧ charUtf8 c = [c.toNat] ∧ utf8Size c = 1) ∨
    (0x80 ≤ c.toNat ∧ c.toNat < 0x800 ∧
      charUtf8 c = [0xC0 + c.toNat / 0x40, 0x80 + c.toNat % 0x40] ∧ utf8Size c = 2) ∨
    (0x800 ≤ c.toNat ∧ c.toNat < 0x10000 ∧
      charUtf8 c = [0xE0 + c.toNat / 0x1000, 0x80 + (c.toNat / 0x40) % 0x40,
        0x80 + c.toNat % 0x40] ∧ utf8Size c = 3) ∨
    (0x10000 ≤ c.toNat ∧
      charUtf8 c = [0xF0 + c.toNat / 0x40000, 0x80 + (c.toNat / 0x1000) % 0x40,
        0x80 + (c.toNat / 0x40) % 0x40, 0x80 + c.toNat % 0x40] ∧ utf8Size c = 4) := by
  by_cases h1 : c.toNat < 0x80
  · exact Or.inl ⟨h1, by rw [charUtf8, if_pos h1], by rw [utf8Size, if_pos h1]⟩
  · by_cases h2 : c.toNat < 0x800
    · refine Or.inr (Or.inl ⟨by omega, h2, ?_, ?_⟩)
      · rw [charUtf8, if_neg h1, if_pos h2]
      · rw [utf8Size, if_neg h1, if_pos h2]
    · by_cases h3 : c.toNat < 0x10000
      · refine Or.inr (Or.inr (Or.inl ⟨by omega, h3, ?_, ?_⟩))
        · rw [charUtf8, if_neg h1, if_neg h2, if_pos h3]
        · rw [utf8Size, if_neg h1, if_neg h2, if_pos h3]
      · refine Or.inr (Or.inr (Or.inr ⟨by omega, ?_, ?_⟩))
        · rw [charUtf8, if_neg h1, if_neg h2, if_neg h3]
        · rw [utf8Size, if_neg h1, if_neg h2, if_neg h3]

theorem charUtf8_length (c : Char) : (charUtf8 c).length = utf8Size c := by
  rcases charUtf8_cases c with ⟨_, h, hs⟩ | ⟨_, _, h, hs⟩ | ⟨_, _, h, hs⟩ | ⟨_, h, hs⟩ <;>
    rw [h, hs] <;> rfl

theorem charUtf8_struct (c : Char) :
    ∃ b t, charUtf8 c = b :: t ∧ (∀ x ∈ t, isCont x) ∧ ¬ isCont b ∧
      ((utf8Size c = 1 ∧ b < 0x80) ∨ (utf8Size c = 2 ∧ 0xC0 ≤ b ∧ b < 0xE0) ∨
        (utf8Size c = 3 ∧ 0xE0 ≤ b ∧ b < 0xF0) ∨ (utf8Size c = 4 ∧ 0xF0 ≤ b)) := by
  rcases charUtf8_cases c with ⟨h, he, hs⟩ | ⟨h0, h, he, hs⟩ | ⟨h0, h, he, hs⟩ | ⟨h0, he, hs⟩
  · exact ⟨_, _, he, by simp, by unfold isCont; omega, Or.inl ⟨hs, h⟩⟩
  · refine ⟨_, _, he, ?_, ?_, Or.inr (Or.inl ⟨hs, by omega, by omega⟩)⟩
    · intro x hx
      simp only [List.mem_singleton] at hx
      subst hx
      exact ⟨by omega, by omega⟩
    · unfold isCont; omega
  · refine ⟨_, _, he, ?_, ?_, Or.inr (Or.inr (Or.inl ⟨hs, by omega, by omega⟩))⟩
    · intro x hx
      simp only [List.mem_cons, List.mem_singleton, List.not_mem_nil, or_false] at hx
      rcases hx with rfl | rfl
      · exact ⟨by omega, by omega⟩
      · exact ⟨by omega, by omega⟩
    · unfold isCont; omega
  · refine ⟨_, _, he, ?_, ?_, Or.inr (Or.inr (Or.inr ⟨hs, by omega⟩))⟩
    · intro x hx
      simp only [List.mem_cons, List.mem_singleton, List.not_mem_nil, or_false] at hx
      rcases hx with rfl | rfl | rfl
      · exact ⟨by omega, by omega⟩
      · exact ⟨by omega, by omega⟩
      · exact ⟨by omega, by omega⟩
    · unfold isCont; omega

theorem utf8Size_eq_of_lead {c d : Char} {b : Nat} {tc td : List Nat}
    (hc : charUtf8 c = b :: tc) (hd : charUtf8 d = b :: td) : utf8Size c = utf8Size d := by
  obtain ⟨bc, tc2, hce, _, _, hcl⟩ := charUtf8_struct c
  obtain ⟨bd, td2, hde, _, _, hdl⟩ := charUtf8_struct d
  rw [hc] at hce
  rw [hd] at hde
  simp only [List.cons.injEq] at hce hde
  obtain ⟨rfl, -⟩ := hce
  obtain ⟨rfl, -⟩ := hde
  rcases hcl with ⟨h1, h2⟩ | ⟨h1, h2, h3⟩ | ⟨h1, h2, h3⟩ | ⟨h1, h2⟩ <;>
    rcases hdl with ⟨g1, g2⟩ | ⟨g1, g2, g3⟩ | ⟨g1, g2, g3⟩ | ⟨g1, g2⟩ <;> omega

theorem charUtf8_inj {c d : Char} (h : charUtf8 c = charUtf8 d) : c = d := by
  rcases charUtf8_cases c with ⟨hc, hce, _⟩ | ⟨hc0, hc, hce, _⟩ | ⟨hc0, hc, hce, _⟩ | ⟨hc0, hce, _⟩ <;>
    rcases charUtf8_cases d with ⟨hd, hde, _⟩ | ⟨hd0, hd, hde, _⟩ | ⟨hd0, hd, hde, _⟩ | ⟨hd0, hde, _⟩ <;>
      rw [hce, hde] at h <;> simp only [List.cons.injEq, List.cons_ne_nil, List.nil_eq,
        and_true, and_false, false_and] at h <;>
      exact Char.ext (UInt32.ext (show c.toNat = d.toNat by omega))

theorem strBytes_nil : strBytes [] = [] := rfl

theorem strBytes_cons (c : Char) (s : List Char) :
    strBytes (c :: s) = charUtf8 c ++ strBytes s := by
  simp [strBytes]

theorem utf8Len_nil : utf8Len [] = 0 := rfl

theorem utf8Len_cons (c : Char) (s : List Char) :
    utf8Len (c :: s) = utf8Size c + utf8Len s := by
  simp [utf8Len]

theorem utf8Len_append (t u : List Char) : utf8Len (t ++ u) = utf8Len t + utf8Len u := by
  simp [utf8Len]

theorem startsWithBytes_iff (a b : List Nat) : startsWithBytes a b = true ↔ a <+: b := by
  induction a generalizing b with
  | nil => simp [startsWithBytes]
  | cons x xs ih =>
    cases b with
    | nil => simp [startsWithBytes]
    | cons y ys =>
      simp [startsWithBytes, List.cons_prefix_cons, ih, Bool.and_eq_true, decide_eq_true_eq]

theorem splitAtBytes_boundary (t u : List Char) :
    splitAtBytes (t ++ u) (utf8Len t) = some (t, u) := by
  induction t with
  | nil => simp [splitAtBytes, utf8Len_nil]
  | cons c t ih =>
    have hpos := utf8Size_pos c
    obtain ⟨m, hm⟩ : ∃ m, utf8Size c + utf8Len t = m + 1 :=
      ⟨utf8Size c + utf8Len t - 1, by omega⟩
    rw [utf8Len_cons, List.cons_append, hm, splitAtBytes, if_pos (by omega)]
    have h2 : m + 1 - utf8Size c = utf8Len t := by omega
    rw [h2, ih]
    rfl

theorem splitAtBytes_some {s : List Char} {n : Nat} {a b : List Char}
    (h : splitAtBytes s n = some (a, b)) : s = a ++ b ∧ utf8Len a = n := by
  induction s generalizing n a b with
  | nil =>
    cases n with
    | zero =>
      simp [splitAtBytes] at h
      obtain ⟨rfl, rfl⟩ := h
      exact ⟨rfl, rfl⟩
    | succ m => simp [splitAtBytes] at h
  | cons c rest ih =>
    cases n with
    | zero =>
      simp [splitAtBytes] at h
      obtain ⟨rfl, rfl⟩ := h
      exact ⟨rfl, rfl⟩
    | succ m =>
      rw [splitAtBytes] at h
      split_ifs at h with hle
      · rw [Option.map_eq_some'] at h
        obtain ⟨pr, hpr, heq⟩ := h
        obtain ⟨h1, h2⟩ := ih hpr
        simp only [Prod.mk.injEq] at heq
        obtain ⟨rfl, rfl⟩ := heq
        refine ⟨by simp [h1], ?_⟩
        rw [utf8Len_cons]
        omega


theorem prefix_decode {k : List Char} : ∀ {s : List Char},
    strBytes k <+: strBytes s → ∃ u, s = k ++ u := by
  induction k with
  | nil => exact fun {s} _ => ⟨s, rfl⟩
  | cons c k ih =>
    intro s h
    cases s with
    | nil =>
      rw [strBytes_nil, List.prefix_nil, strBytes_cons, List.append_eq_nil] at h
      obtain ⟨bc, tc, hce, -, -, -⟩ := charUtf8_struct c
      rw [hce] at h
      exact absurd h.1 (List.cons_ne_nil _ _)
    | cons d s =>
      rw [strBytes_cons, strBytes_cons] at h
      obtain ⟨r, hr⟩ := h
      obtain ⟨bc, tc, hce, -, -, -⟩ := charUtf8_struct c
      obtain ⟨bd, td, hde, -, -, -⟩ := charUtf8_struct d
      have hhead : bc = bd := by
        rw [hce, hde, List.cons_append, List.cons_append, List.cons_append] at hr
        exact (List.cons.injEq .. ▸ hr).1
      have hlen : (charUtf8 c).length = (charUtf8 d).length := by
        rw [charUtf8_length, charUtf8_length]
        exact utf8Size_eq_of_lead hce (hhead ▸ hde)
      rw [List.append_assoc] at hr
      obtain ⟨h1, h2⟩ := List.append_inj hr hlen
      obtain rfl := charUtf8_inj h1
      obtain ⟨u, hu⟩ := ih ⟨r, h2⟩
      exact ⟨u, by rw [hu, List.cons_append]⟩

theorem startsWith_str_split {k s : List Char}
    (h : startsWithBytes (strBytes k) (strBytes s) = true) :
    ∃ u, s = k ++ u ∧ splitAtBytes s (utf8Len k) = some (k, u) := by
  obtain ⟨u, rfl⟩ := prefix_decode ((startsWithBytes_iff _ _).mp h)
  exact ⟨u, rfl, splitAtBytes_boundary k u⟩

theorem findBytes_eq (needle hay : List Nat) :
    findBytes needle hay = if startsWithBytes needle hay then some 0 else
      (match hay with
       | [] => Option.none
       | _ :: t => (findBytes needle t).map (· + 1)) := by
  rw [findBytes.eq_def]

theorem findBytes_pos {needle hay : List Nat}
    (h : startsWithBytes needle hay = true) : findBytes needle hay = some 0 := by
  rw [findBytes_eq, h]
  rfl

theorem findBytes_cons_neg {needle : List Nat} {x : Nat} {t : List Nat}
    (h : startsWithBytes needle (x :: t) = false) :
    findBytes needle (x :: t) = (findBytes needle t).map (· + 1) := by
  rw [findBytes_eq, h]
  rfl

theorem findBytes_skip {nb : List Nat} {b0 : Nat} {l0 : List Nat} (hnb : nb = b0 :: l0)
    (hb : ¬ isCont b0) : ∀ (pre : List Nat) {rest : List Nat} {i : Nat},
    (∀ x ∈ pre, isCont x) → findBytes nb (pre ++ rest) = some i →
    pre.length ≤ i ∧ findBytes nb rest = some (i - pre.length) := by
  intro pre
  induction pre with
  | nil => exact fun {rest i} _ h => ⟨Nat.zero_le _, by simpa using h⟩
  | cons x pre ih =>
    intro rest i hpre h
    have hx : isCont x := hpre x (by simp)
    have hne : b0 ≠ x := fun he => hb (he ▸ hx)
    have hsw : startsWithBytes nb ((x :: pre) ++ rest) = false := by
      rw [hnb, List.cons_append]
      simp [startsWithBytes, hne]
    rw [List.cons_append] at hsw h
    rw [findBytes_cons_neg hsw, Option.map_eq_some'] at h
    obtain ⟨j, hj, rfl⟩ := h
    obtain ⟨hle, hfind⟩ := ih (fun y hy => hpre y (by simp [hy])) hj
    refine ⟨by simpa using Nat.succ_le_succ hle, ?_⟩
    have heq : j + 1 - (x :: pre).length = j - pre.length := by
      simp only [List.length_cons]
      omega
    rw [heq]
    exact hfind

theorem findBytes_boundary {k : List Char} : ∀ (s : List Char) {i : Nat},
    findBytes (strBytes k) (strBytes s) = some i →
    ∃ t u, s = t ++ u ∧ utf8Len t = i := by
  cases k with
  | nil =>
    intro s i h
    rw [strBytes_nil, findBytes_pos (by rw [startsWithBytes])] at h
    obtain rfl : (0 : Nat) = i := Option.some.inj h
    exact ⟨[], s, rfl, rfl⟩
  | cons c0 k0 =>
    obtain ⟨b0, t0, he0, -, hlead, -⟩ := charUtf8_struct c0
    have hnb : strBytes (c0 :: k0) = b0 :: (t0 ++ strBytes k0) := by
      rw [strBytes_cons, he0, List.cons_append]
    generalize hgen : strBytes (c0 :: k0) = nb at hnb ⊢
    intro s
    induction s with
    | nil =>
      intro i h
      rw [strBytes_nil, findBytes_eq, hnb] at h
      rw [show startsWithBytes (b0 :: (t0 ++ strBytes k0)) [] = false from rfl] at h
      simp at h
    | cons d s ih =>
      intro i h
      obtain ⟨bd, td, hde, hcontd, -, -⟩ := charUtf8_struct d
      by_cases hsw : startsWithBytes nb (strBytes (d :: s)) = true
      · rw [findBytes_pos hsw] at h
        obtain rfl : (0 : Nat) = i := Option.some.inj h
        exact ⟨[], d :: s, rfl, rfl⟩
      · rw [Bool.not_eq_true] at hsw
        rw [strBytes_cons, hde, List.cons_append] at hsw h
        rw [findBytes_cons_neg hsw, Option.map_eq_some'] at h
        obtain ⟨j, hj, rfl⟩ := h
        obtain ⟨hle, hfind⟩ := findBytes_skip hnb hlead td hcontd hj
        obtain ⟨t, u, rfl, hlen⟩ := ih hfind
        have hsized : utf8Size d = td.length + 1 := by
          have hl := charUtf8_length d
          rw [hde] at hl
          simp only [List.length_cons] at hl
          omega
        refine ⟨d :: t, u, rfl, ?_⟩
        rw [utf8Len_cons]
        omega

theorem twOffsetC_takeWhile (f : Char → Bool) (l : List Char) :
    twOffsetC f l = utf8Len (l.takeWhile f) := by
  induction l with
  | nil => rfl
  | cons c rest ih =>
    by_cases hc : f c <;> simp [twOffsetC, List.takeWhile_cons, hc, utf8Len_cons, utf8Len_nil, ih]

theorem twOffsetB_takeWhile (g : Nat → Bool) (l : List Nat) :
    twOffsetB g l = (l.takeWhile g).length := by
  induction l with
  | nil => rfl
  | cons b rest ih =>
    by_cases hb : g b
    · simp [twOffsetB, List.takeWhile_cons, hb, ih]
      omega
    · simp [twOffsetB, List.takeWhile_cons, hb, ih]

theorem twToLoopC_boundary (f : Char → Bool) (n : Nat) :
    ∀ (l : List Char) (acc : Nat), ∃ t u, l = t ++ u ∧ twToLoopC f n l acc = acc + utf8Len t := by
  intro l
  induction l with
  | nil => exact fun acc => ⟨[], [], rfl, by simp [twToLoopC, utf8Len_nil]⟩
  | cons c rest ih =>
    intro acc
    by_cases h1 : acc < n
    · by_cases h2 : f c
      · obtain ⟨t, u, hl, he⟩ := ih (acc + utf8Size c)
        refine ⟨c :: t, u, by rw [hl, List.cons_append], ?_⟩
        rw [twToLoopC, if_pos h1, if_pos h2, he, utf8Len_cons]
        omega
      · exact ⟨[], c :: rest, rfl, by rw [twToLoopC, if_pos h1, if_neg h2, utf8Len_nil]; omega⟩
    · exact ⟨[], c :: rest, rfl, by rw [twToLoopC, if_neg h1, utf8Len_nil]; omega⟩


theorem dropWhile_head_false (f : Char → Bool) (l : List Char) :
    ∀ y, (l.dropWhile f).head? = some y → f y = false := by
  induction l with
  | nil => intro y h; simp at h
  | cons c rest ih =>
    intro y h
    by_cases hc : f c
    · rw [List.dropWhile_cons_of_pos hc] at h
      exact ih y h
    · rw [List.dropWhile_cons_of_neg hc] at h
      obtain rfl : c = y := by simpa using h
      simpa using hc

theorem splitTo_boundary_chars (c : CharsTS) (t u : List Char) (h : c.value = t ++ u) :
    c.splitTo (utf8Len t) = some (⟨c.offset, t⟩, ⟨c.offset + utf8Len t, u⟩) := by
  rw [CharsTS.splitTo, h, splitAtBytes_boundary]
  rfl

theorem splitTo_boundary_bytes (c : BytesTS) (t u : List Char) (h : c.value = t ++ u) :
    c.splitTo (utf8Len t) = some (⟨c.offset, t⟩, ⟨c.offset + utf8Len t, u⟩) := by
  rw [BytesTS.splitTo, h, splitAtBytes_boundary]
  rfl

theorem isSome_map {A B : Type} (g : A → B) (o : Option A) : (o.map g).isSome = o.isSome := by
  cases o <;> rfl

/-! ## Claim theorems -/

/-- C6 (amended): `keyword` with a string needle on the byte-flavor
string-backed cursor succeeds iff the cursor's leading code units equal the
needle, consuming exactly `k.len()` code units (the window is exactly the
needle's text and the cursor advances by `k.len()`); on mismatch it returns
`Keyword(Recoverable, …)` with the cursor unchanged.  (A byte-slice needle
that ends inside a multi-byte code point instead makes the underlying
`str::split_at` panic — see the counterexample.) -/
theorem c6_keyword_str (k : List Char) (c : BytesTS) :
    (startsWithBytes (strBytes k) (strBytes c.value) = true →
      ∃ u, c.value = k ++ u ∧
        keywordStrB k c
          = some (Except.ok ⟨c.offset, k⟩, (⟨c.offset + utf8Len k, u⟩ : BytesTS))) ∧
    (startsWithBytes (strBytes k) (strBytes c.value) = false →
      keywordStrB k c
        = some (Except.error (Kind.keyword ControlFlow.recovable
            (Span.range c.start (min (c.start + utf8Len k) c.stop))), c)) := by
  constructor
  · intro h
    obtain ⟨u, hu, -⟩ := startsWith_str_split h
    refine ⟨u, hu, ?_⟩
    rw [keywordStrB, if_pos h, splitTo_boundary_bytes c k u hu]
    rfl
  · intro h
    rw [keywordStrB, if_neg (by rw [h]; exact Bool.false_ne_true)]

/-- Witness for the amended C6: `keyword("us")` on cursor `"use"`. -/
theorem c6_witness :
    keywordStrB ['u', 's'] ⟨0, ['u', 's', 'e']⟩
      = some (Except.ok ⟨0, ['u', 's']⟩, (⟨0 + utf8Len ['u', 's'], ['e']⟩ : BytesTS)) := by
  obtain ⟨u, hu, hres⟩ := (c6_keyword_str ['u', 's'] ⟨0, ['u', 's', 'e']⟩).1 (by decide)
  obtain rfl : u = ['e'] := by simpa using hu.symm
  exact hres

/-- C6 (counterexample): with the byte-slice needle `[0xC3]` on cursor
`"éx"`, the cursor's leading code unit does equal the needle, yet
`keyword` does not succeed: it requests `split_to(1)` inside the two-byte
code point and the underlying `str::split_at` panics (`none`). -/
theorem c6_counterexample :
    startsWithBytes [195] (strBytes [Char.ofNat 233, 'x']) = true ∧
    keywordBytesB [195] ⟨0, [Char.ofNat 233, 'x']⟩ = Option.none := by
  constructor
  · decide
  · decide

/-- C7 (counterexample): on the byte-flavor cursor `"é"` with a predicate
accepting exactly the byte `0xC3`, the maximal matching prefix is the
first byte of a two-byte code point, and `take_while` panics in
`str::split_at` (modelled `none`) instead of returning `Ok`. -/
theorem c7_counterexample :
    (strBytes [Char.ofNat 233]).takeWhile (fun x => x = 195) = [195] ∧
    takeWhileB (fun x => x = 195) ⟨0, [Char.ofNat 233]⟩ = Option.none := by
  constructor
  · decide
  · decide

/-- C7 (amended): on the character flavor `take_while` always returns `Ok`
with the longest prefix whose items all satisfy the predicate (cursor
advanced past exactly that prefix); on the byte flavor the same holds
whenever the maximal matching byte prefix ends on a code-point boundary of
the backing string, and otherwise the underlying split panics. -/
theorem c7_take_while_spec :
    (∀ (f : Char → Bool) (c : CharsTS), ∃ t u,
      c.value = t ++ u ∧ (∀ x ∈ t, f x = true) ∧ (∀ y, u.head? = some y → f y = false) ∧
      takeWhileC f c = some (Except.ok ⟨c.offset, t⟩, (⟨c.offset + utf8Len t, u⟩ : CharsTS))) ∧
    (∀ (g : Nat → Bool) (b : BytesTS),
      (∀ t u, b.value = t ++ u → utf8Len t = ((strBytes b.value).takeWhile g).length →
        takeWhileB g b
          = some (Except.ok ⟨b.offset, t⟩, (⟨b.offset + utf8Len t, u⟩ : BytesTS))) ∧
      ((∀ t u, b.value = t ++ u → utf8Len t ≠ ((strBytes b.value).takeWhile g).length) →
        takeWhileB g b = Option.none)) := by
  constructor
  · intro f c
    refine ⟨c.value.takeWhile f, c.value.dropWhile f,
      (List.takeWhile_append_dropWhile f c.value).symm,
      fun x hx => List.mem_takeWhile_imp hx,
      dropWhile_head_false f c.value, ?_⟩
    rw [takeWhileC, twOffsetC_takeWhile,
      splitTo_boundary_chars c _ _ (List.takeWhile_append_dropWhile _ _).symm]
    rfl
  · intro g b
    constructor
    · intro t u ht hlen
      rw [takeWhileB, twOffsetB_takeWhile, ← hlen, splitTo_boundary_bytes b t u ht]
      rfl
    · intro hno
      rw [takeWhileB, twOffsetB_takeWhile]
      cases hsp : b.splitTo ((strBytes b.value).takeWhile g).length with
      | none => rfl
      | some pr =>
        exfalso
        rw [BytesTS.splitTo, Option.map_eq_some'] at hsp
        obtain ⟨pr2, hpr2, -⟩ := hsp
        obtain ⟨a2, b2⟩ := pr2
        obtain ⟨hdec, hlen⟩ := splitAtBytes_some hpr2
        exact hno a2 b2 hdec hlen

/-- Witness for the amended C7: byte-flavor success on `"ab"` with the
predicate accepting only `a`. -/
theorem c7_witness :
    takeWhileB (fun x => x = 97) ⟨0, ['a', 'b']⟩
      = some (Except.ok ⟨0, ['a']⟩, (⟨0 + utf8Len ['a'], ['b']⟩ : BytesTS)) :=
  (c7_take_while_spec.2 (fun x => x = 97) ⟨0, ['a', 'b']⟩).1 ['a'] ['b'] rfl (by decide)

/-- C4 (counterexample): `take_while_range_from(2, always-true)` on the
character cursor `"é"` has a maximal matching prefix of one *item*
(`takeWhile` length 1 < 2, so the claim demands a `TakeWhileFrom` failure),
yet the parser succeeds because the loop accumulates the item's *encoded
length* (2 code units). -/
theorem c4_counterexample :
    (([Char.ofNat 233] : List Char).takeWhile (fun _ => true)).length = 1 ∧
    takeWhileRangeFromC 2 (fun _ => true) ⟨0, [Char.ofNat 233]⟩
      = some (Except.ok ⟨0, [Char.ofNat 233]⟩, (⟨2, []⟩ : CharsTS)) := by
  constructor
  · decide
  · decide

/-- C4 (amended): `take_while_range_from(n, pred)` fails with
`TakeWhileFrom(Recoverable, Range(start, start + L))` (cursor unchanged)
exactly when the *code-unit* length `L` of the maximal prefix satisfying
`pred` is `< n` — not the item count; the two agree on the byte flavor —
and otherwise splits off that maximal prefix (on the byte flavor provided
it ends on a code-point boundary of the backing string). -/
theorem c4_take_while_from_spec :
    (∀ (n : Nat) (f : Char → Bool) (c : CharsTS),
      (utf8Len (c.value.takeWhile f) < n →
        takeWhileRangeFromC n f c = some (Except.error
          (Kind.takeWhileFrom ControlFlow.recovable
            (Span.range c.start (c.start + utf8Len (c.value.takeWhile f)))), c)) ∧
      (n ≤ utf8Len (c.value.takeWhile f) →
        takeWhileRangeFromC n f c = some (Except.ok ⟨c.offset, c.value.takeWhile f⟩,
          (⟨c.offset + utf8Len (c.value.takeWhile f), c.value.dropWhile f⟩ : CharsTS)))) ∧
    (∀ (n : Nat) (g : Nat → Bool) (b : BytesTS),
      (((strBytes b.value).takeWhile g).length < n →
        takeWhileRangeFromB n g b = some (Except.error
          (Kind.takeWhileFrom ControlFlow.recovable
            (Span.range b.start (b.start + ((strBytes b.value).takeWhile g).length))), b)) ∧
      (∀ t u, b.value = t ++ u → utf8Len t = ((strBytes b.value).takeWhile g).length →
        n ≤ utf8Len t →
        takeWhileRangeFromB n g b = some (Except.ok ⟨b.offset, t⟩,
          (⟨b.offset + utf8Len t, u⟩ : BytesTS)))) := by
  constructor
  · intro n f c
    constructor
    · intro h
      rw [takeWhileRangeFromC]
      simp only [twOffsetC_takeWhile]
      rw [if_pos h]
    · intro h
      rw [takeWhileRangeFromC]
      simp only [twOffsetC_takeWhile]
      rw [if_neg (by omega),
        splitTo_boundary_chars c _ _ (List.takeWhile_append_dropWhile _ _).symm]
      rfl
  · intro n g b
    constructor
    · intro h
      rw [takeWhileRangeFromB]
      simp only [twOffsetB_takeWhile]
      rw [if_pos h]
    · intro t u ht hlen hn
      rw [takeWhileRangeFromB]
      simp only [twOffsetB_takeWhile, ← hlen]
      rw [if_neg (by omega), splitTo_boundary_bytes b t u ht]
      rfl

/-- Witness for the amended C4: failing and succeeding cases at concrete
inputs on the character flavor. -/
theorem c4_witness :
    takeWhileRangeFromC 2 (fun _ => true) ⟨0, ['a']⟩
      = some (Except.error (Kind.takeWhileFrom ControlFlow.recovable (Span.range 0 1)),
          (⟨0, ['a']⟩ : CharsTS)) ∧
    takeWhileRangeFromC 1 (fun _ => true) ⟨0, ['a']⟩
      = some (Except.ok ⟨0, ['a']⟩, (⟨0 + utf8Len ['a'], ([] : List Char)⟩ : CharsTS)) :=
  ⟨(c4_take_while_from_spec.1 2 (fun _ => true) ⟨0, ['a']⟩).1 (by decide),
   (c4_take_while_from_spec.1 1 (fun _ => true) ⟨0, ['a']⟩).2 (by decide)⟩

/-- C9 (counterexample): `keyword` with the byte-slice needle `[0xC3]` on
the character cursor `"é"`: the needle matches the leading byte, so the
recognizer requests a split at index 1, which is inside the two-byte code
point — the underlying `str::split_at` panics (`none`). -/
theorem c9_counterexample :
    startsWithBytes [195] (strBytes [Char.ofNat 233]) = true ∧
    keywordBytesC [195] ⟨0, [Char.ofNat 233]⟩ = Option.none := by
  constructor
  · decide
  · decide

/-- C9 (amended): on the character cursor, `next`, `next_if`, the whole
`take_while` family, and `keyword`/`take_until` with *string* needles only
request splits at in-bounds code-point boundaries, so the underlying
string split never panics (every call returns, i.e. is `some`); `keyword`
with a byte-slice needle can instead request a split inside a multi-byte
code point and panic. -/
theorem c9_char_splits_safe (c : CharsTS) (it : Char) (f : Char → Bool) (k : List Char)
    (n lo hi : Nat) :
    (nextC it c).isSome ∧ (nextIfC f c).isSome ∧ (keywordStrC k c).isSome ∧
    (takeUntilStrC k c).isSome ∧ (takeWhileC f c).isSome ∧ (takeTillC f c).isSome ∧
    (takeWhileRangeToC n f c).isSome ∧ (takeWhileRangeFromC n f c).isSome ∧
    (takeWhileRangeC lo hi f c).isSome := by
  have hsplitSome : ∀ {m : Nat} (t u : List Char), c.value = t ++ u → utf8Len t = m →
      (c.splitTo m).isSome := by
    intro m t u h1 h2
    rw [← h2, splitTo_boundary_chars c t u h1]
    rfl
  have htwC : ∀ f2 : Char → Bool, (takeWhileC f2 c).isSome := by
    intro f2
    rw [takeWhileC, isSome_map]
    exact hsplitSome _ _ (List.takeWhile_append_dropWhile f2 c.value).symm
      (twOffsetC_takeWhile f2 c.value).symm
  refine ⟨?_, ?_, ?_, ?_, htwC f, htwC _, ?_, ?_, ?_⟩
  · cases hv : c.value with
    | nil => simp [nextC, hv]
    | cons d rest =>
      by_cases hd : d = it
      · subst hd
        have hs := hsplitSome [d] rest hv
          (show utf8Len [d] = utf8Size d by simp [utf8Len_cons, utf8Len_nil])
        simp [nextC, hv, isSome_map, hs]
      · simp [nextC, hv, hd]
  · cases hv : c.value with
    | nil => simp [nextIfC, hv]
    | cons d rest =>
      by_cases hd : f d
      · have hs := hsplitSome [d] rest hv
          (show utf8Len [d] = utf8Size d by simp [utf8Len_cons, utf8Len_nil])
        simp [nextIfC, hv, hd, isSome_map, hs]
      · simp [nextIfC, hv, hd]
  · by_cases hsw : startsWithBytes (strBytes k) (strBytes c.value) = true
    · obtain ⟨u, hu, -⟩ := startsWith_str_split hsw
      rw [keywordStrC, if_pos hsw, isSome_map]
      exact hsplitSome k u hu rfl
    · rw [keywordStrC, if_neg hsw]
      rfl
  · cases hf : findBytes (strBytes k) (strBytes c.value) with
    | none => simp [takeUntilStrC, hf]
    | some i =>
      obtain ⟨t, u, hdec, hlen⟩ := findBytes_boundary c.value hf
      rw [takeUntilStrC]
      simp only [hf]
      rw [isSome_map]
      exact hsplitSome t u hdec hlen
  · obtain ⟨t, u, hdec, he⟩ := twToLoopC_boundary f n c.value 0
    rw [takeWhileRangeToC, isSome_map]
    exact hsplitSome t u hdec (by omega)
  · rw [takeWhileRangeFromC]
    by_cases h : twOffsetC f c.value < n
    · rw [if_pos h]
      rfl
    · rw [if_neg h, isSome_map]
      exact hsplitSome _ _ (List.takeWhile_append_dropWhile f c.value).symm
        (twOffsetC_takeWhile f c.value).symm
  · rw [takeWhileRangeC]
    by_cases h : twToLoopC f hi c.value 0 < lo
    · rw [if_pos h]
      rfl
    · rw [if_neg h, isSome_map]
      obtain ⟨t, u, hdec, he⟩ := twToLoopC_boundary f hi c.value 0
      exact hsplitSome t u hdec (by omega)

/-! ## Claim theorems -/

/-- C1: `into_fatal` is claimed to preserve the kind constructor and the
span, changing only the tag.  The source instead rewrites the
`TakeWhileFrom` kind to `TakeWhileRange` and the `Delimiter` kind to
`LimitsFrom` (errors.rs lines 88 and 94), contradicting the spec's stated
contract; this theorem evaluates `into_fatal` at both failing inputs. -/
theorem c1_into_fatal_divergence :
    Kind.intoFatal (Kind.takeWhileFrom ControlFlow.recovable (Span.range 0 1))
      = Kind.takeWhileRange ControlFlow.fatal (Span.range 0 1) ∧
    Kind.intoFatal (Kind.delimiter ControlFlow.recovable (Span.range 0 1))
      = Kind.limitsFrom ControlFlow.fatal (Span.range 0 1) :=
  ⟨rfl, rfl⟩

/-- C2 (counterexample): an Incomplete failure is *not* propagated by
`ok()`/`or()`.  `next('a')` on the empty cursor fails with
`Next(Incomplete, …)`, yet `ok()` converts it to `None` and restores the
cursor, and `or` goes on to try (and here succeed with) the alternative. -/
theorem c2_counterexample :
    nextC 'a' ⟨0, []⟩
      = some (Except.error (Kind.next ControlFlow.incomplete (Span.range 0 0)),
          (⟨0, []⟩ : CharsTS)) ∧
    (Kind.next ControlFlow.incomplete (Span.range 0 0)).controlFlow
      = ControlFlow.incomplete ∧
    isOk (nextC 'a') ⟨0, []⟩ = some (Except.ok Option.none, (⟨0, []⟩ : CharsTS)) ∧
    orP (nextC 'a') (takeWhileC fun _ => true) ⟨0, []⟩
      = some (Except.ok ⟨0, []⟩, (⟨0, []⟩ : CharsTS)) := by
  refine ⟨rfl, rfl, rfl, rfl⟩

/-- C2 (amended): an Incomplete error behaves like a Recoverable one for
backtracking — `ok()` turns it into `None` restoring the cursor, and `or`
goes on to run the alternative on the original cursor (`IsOk::parse` and
`Or::parse` test only for the Fatal tag). -/
theorem c2_incomplete_backtracks {I O : Type} (p q : Parser I O) (c : I) (e : Kind) (c2 : I)
    (h : p c = some (Except.error e, c2)) (hcf : e.controlFlow = ControlFlow.incomplete) :
    isOk p c = some (Except.ok Option.none, c) ∧ orP p q c = q c := by
  have hne : e.controlFlow ≠ ControlFlow.fatal := by rw [hcf]; decide
  have h1 : isOk p c = some (Except.ok Option.none, c) := by simp [isOk, h, hne]
  exact ⟨h1, by simp [orP, h1]⟩

/-- Witness for the amended C2 at a concrete Incomplete failure. -/
theorem c2_witness :
    isOk (nextC 'b') ⟨0, []⟩ = some (Except.ok Option.none, (⟨0, []⟩ : CharsTS)) ∧
    orP (nextC 'b') (takeWhileC fun _ => false) ⟨0, []⟩
      = (takeWhileC fun _ => false) ⟨0, []⟩ :=
  c2_incomplete_backtracks (nextC 'b') (takeWhileC fun _ => false) ⟨0, []⟩
    (Kind.next ControlFlow.incomplete (Span.range 0 0)) ⟨0, []⟩ rfl rfl

/-- C3 (counterexample): a parser that consumes `a` and then fails fatally
leaves its own cursor at the partially-consumed state `(1, "x")`, but
`or` runs it on an internal clone, so the caller's cursor after
`a.or(b).parse(c)` is the untouched pre-call cursor `(0, "ax")`, not the
partially-consumed one the claim requires. -/
theorem c3_counterexample :
    seqAThenFatalB ⟨0, ['a', 'x']⟩
      = some (Except.error (Kind.next ControlFlow.fatal (Span.range 1 2)),
          (⟨1, ['x']⟩ : CharsTS)) ∧
    orP seqAThenFatalB (nextC 'z') ⟨0, ['a', 'x']⟩
      = some (Except.error (Kind.next ControlFlow.fatal (Span.range 1 2)),
          (⟨0, ['a', 'x']⟩ : CharsTS)) ∧
    (⟨0, ['a', 'x']⟩ : CharsTS) ≠ ⟨1, ['x']⟩ := by
  refine ⟨rfl, rfl, by decide⟩

/-- C3 (amended): on a Fatal failure `ok()` returns the error with the
cursor reflecting the inner parser's partial consumption, while `or`
returns the error with the caller's cursor still in its pre-call state
(the inner parser ran on a discarded clone). -/
theorem c3_fatal_cursor {I O : Type} (p q : Parser I O) (c : I) (e : Kind) (c2 : I)
    (h : p c = some (Except.error e, c2)) (hcf : e.controlFlow = ControlFlow.fatal) :
    isOk p c = some (Except.error e, c2) ∧ orP p q c = some (Except.error e, c) := by
  have h1 : isOk p c = some (Except.error e, c2) := by simp [isOk, h, hcf]
  exact ⟨h1, by simp [orP, h1]⟩

/-- Witness for the amended C3 at a concrete Fatal failure with partial
consumption. -/
theorem c3_witness :
    isOk seqAThenFatalB ⟨0, ['a', 'x']⟩
      = some (Except.error (Kind.next ControlFlow.fatal (Span.range 1 2)),
          (⟨1, ['x']⟩ : CharsTS)) ∧
    orP seqAThenFatalB (nextC 'z') ⟨0, ['a', 'x']⟩
      = some (Except.error (Kind.next ControlFlow.fatal (Span.range 1 2)),
          (⟨0, ['a', 'x']⟩ : CharsTS)) :=
  c3_fatal_cursor seqAThenFatalB (nextC 'z') ⟨0, ['a', 'x']⟩
    (Kind.next ControlFlow.fatal (Span.range 1 2)) ⟨1, ['x']⟩ rfl rfl

/-- C5: `ok()` returns `Ok(Some v)` on success, returns a Fatal error
unchanged (with the inner parser's final cursor), and on any non-Fatal
failure returns `Ok(None)` with the cursor restored to exactly the
pre-call snapshot. -/
theorem c5_is_ok_spec {I O : Type} (p : Parser I O) (c : I) :
    (∀ v c2, p c = some (Except.ok v, c2) → isOk p c = some (Except.ok (some v), c2)) ∧
    (∀ e c2, p c = some (Except.error e, c2) → e.controlFlow ≠ ControlFlow.fatal →
      isOk p c = some (Except.ok Option.none, c)) ∧
    (∀ e c2, p c = some (Except.error e, c2) → e.controlFlow = ControlFlow.fatal →
      isOk p c = some (Except.error e, c2)) := by
  refine ⟨?_, ?_, ?_⟩
  · intro v c2 h
    simp [isOk, h]
  · intro e c2 h hne
    simp [isOk, h, hne]
  · intro e c2 h hcf
    simp [isOk, h, hcf]

/-- Witness for C5: the non-Fatal branch at a concrete Incomplete failure. -/
theorem c5_witness :
    isOk (nextC 'c') ⟨7, []⟩ = some (Except.ok Option.none, (⟨7, []⟩ : CharsTS)) :=
  (c5_is_ok_spec (nextC 'c') ⟨7, []⟩).2.1
    (Kind.next ControlFlow.incomplete (Span.range 7 7)) ⟨7, []⟩ rfl (by decide)

/-- C10: `next_if` on a non-empty cursor whose head fails the predicate
returns `NextIf(Recoverable, to_span())` — the span of the whole remaining
window, `Range(start, end)` — and leaves the cursor unchanged, on both
cursor flavors. -/
theorem c10_next_if_span :
    (∀ (c : CharsTS) (f : Char → Bool) (d : Char) (rest : List Char),
      c.value = d :: rest → f d = false →
      nextIfC f c
        = some (Except.error (Kind.nextIf ControlFlow.recovable (Span.range c.start c.stop)), c)) ∧
    (∀ (c : BytesTS) (g : Nat → Bool) (b : Nat) (bs : List Nat),
      strBytes c.value = b :: bs → g b = false →
      nextIfB g c
        = some (Except.error (Kind.nextIf ControlFlow.recovable (Span.range c.start c.stop)), c)) := by
  constructor
  · intro c f d rest hv hf
    simp [nextIfC, hv, hf, CharsTS.toSpan]
  · intro c g b bs hv hg
    simp [nextIfB, hv, hg, BytesTS.toSpan]

/-- Witness for C10 on both flavors at concrete rejecting heads. -/
theorem c10_witness :
    nextIfC (fun c => c = 'z') ⟨3, ['u', 's']⟩
      = some (Except.error (Kind.nextIf ControlFlow.recovable (Span.range 3 5)),
          (⟨3, ['u', 's']⟩ : CharsTS)) ∧
    nextIfB (fun b => b = 200) ⟨4, ['u']⟩
      = some (Except.error (Kind.nextIf ControlFlow.recovable (Span.range 4 5)),
          (⟨4, ['u']⟩ : BytesTS)) :=
  ⟨c10_next_if_span.1 ⟨3, ['u', 's']⟩ _ 'u' ['s'] rfl (by decide),
   c10_next_if_span.2 ⟨4, ['u']⟩ _ 117 [] rfl (by decide)⟩

/-- C8: for an inner syntax node whose successful value carries a finite
`Range(a, b)` span (length `b - a`): `Limits<LO, HI>` rejects with
`Limits(Recoverable, input.to_span())` exactly when the length is `< LO`
or `≥ HI` (half-open), `LimitsTo<N>` succeeds exactly when the length is
`≤ N`, and `LimitsFrom<LO>` succeeds exactly when the length is `≥ LO`. -/
theorem c8_limits_bounds {I O : Type} (LO HI N : Nat) (ispan : I → Span)
    (tparse : Parser I O) (tspan : O → Span) (c : I) (t : O) (c2 : I) (a b : Nat)
    (hp : tparse c = some (Except.ok t, c2)) (hs : tspan t = Span.range a b) :
    (limitsParse LO HI ispan tparse tspan c
        = some (Except.error (Kind.limits ControlFlow.recovable (ispan c)), c2)
      ↔ (b - a < LO ∨ HI ≤ b - a)) ∧
    (limitsParse LO HI ispan tparse tspan c = some (Except.ok t, c2)
      ↔ (LO ≤ b - a ∧ b - a < HI)) ∧
    (limitsToParse N ispan tparse tspan c = some (Except.ok t, c2) ↔ b - a ≤ N) ∧
    (limitsFromParse LO ispan tparse tspan c = some (Except.ok t, c2) ↔ LO ≤ b - a) := by
  have e1 : limitsParse LO HI ispan tparse tspan c
      = if b - a < LO ∨ ¬ b - a < HI
        then some (Except.error (Kind.limits ControlFlow.recovable (ispan c)), c2)
        else some (Except.ok t, c2) := by
    simp [limitsParse, hp, hs, limitsLen]
  have e2 : limitsToParse N ispan tparse tspan c
      = if b - a > N
        then some (Except.error (Kind.limitsTo ControlFlow.recovable (ispan c)), c2)
        else some (Except.ok t, c2) := by
    simp [limitsToParse, hp, hs, limitsLen]
  have e3 : limitsFromParse LO ispan tparse tspan c
      = if b - a < LO
        then some (Except.error (Kind.limitsFrom ControlFlow.recovable (ispan c)), c2)
        else some (Except.ok t, c2) := by
    simp [limitsFromParse, hp, hs, limitsLen]
  refine ⟨?_, ?_, ?_, ?_⟩
  · rw [e1]; split_ifs with h
    · simp; omega
    · simp; omega
  · rw [e1]; split_ifs with h
    · simp; omega
    · simp; omega
  · rw [e2]; split_ifs with h
    · simp; omega
    · simp; omega
  · rw [e3]; split_ifs with h
    · simp; omega
    · simp; omega

/-- Witness for C8 with a concrete inner node of span `Range(10, 13)`. -/
theorem c8_witness :
    limitsParse 1 5 (fun n : Nat => Span.range n n)
      (fun n : Nat => some (Except.ok (7 : Nat), n + 1)) (fun _ => Span.range 10 13) 0
      = some (Except.ok 7, 1) ∧
    limitsToParse 3 (fun n : Nat => Span.range n n)
      (fun n : Nat => some (Except.ok (7 : Nat), n + 1)) (fun _ => Span.range 10 13) 0
      = some (Except.ok 7, 1) ∧
    limitsFromParse 1 (fun n : Nat => Span.range n n)
      (fun n : Nat => some (Except.ok (7 : Nat), n + 1)) (fun _ => Span.range 10 13) 0
      = some (Except.ok 7, 1) := by
  have h := c8_limits_bounds 1 5 3 (fun n : Nat => Span.range n n)
    (fun n : Nat => some (Except.ok (7 : Nat), n + 1)) (fun _ => Span.range 10 13)
    0 7 1 10 13 rfl rfl
  exact ⟨h.2.1.mpr (by omega), h.2.2.1.mpr (by omega), h.2.2.2.mpr (by omega)⟩

end Parserc
